import Mathlib

/-!
Shallow embedding of `swc-remove-matched-charset-plugin` (src/lib.rs).

Text is modelled as `List Char` (one entry per Unicode scalar value, as in
Rust's `str` viewed through `chars()`); Rust's byte-oriented `str::len` is
modelled by `utf8Len`, the sum of the UTF-8 widths of the characters.

The plugin's `regex::Regex` values come from an external crate; the core only
uses `is_match` and `replace_all`.  A matcher is embedded as a leftmost-match
finder `find : List Char → Option (pre, matched, post)`; `replaceAll` replays
the `replace_all` loop (replace every non-overlapping leftmost match, resuming
after the end of each match).  Concrete instances (`litRe` for literal
patterns, `charClassRe` for single-character classes such as
`[一-鿿]`) give executable witnesses.
-/

namespace SwcRMC

/-- UTF-8 byte width of one scalar value, as Rust's `char::len_utf8`. -/
def utf8Size (c : Char) : Nat :=
  if c.val ≤ 0x7F then 1 else if c.val ≤ 0x7FF then 2
  else if c.val ≤ 0xFFFF then 3 else 4

/-- Rust `str::len`: the UTF-8 byte length of a text. -/
def utf8Len (s : List Char) : Nat := (s.map utf8Size).sum

/-- Rust `str::repeat`: the text repeated `n` times. -/
def repeatN (s : List Char) (n : Nat) : List Char := (List.replicate n s).flatten

/-- A compiled matcher, abstracted to what the plugin uses of `regex::Regex`:
a deterministic leftmost-match finder returning the decomposition
`text = pre ++ matched ++ post` of the first match, or `none`. -/
structure Regex where
  find : List Char → Option (List Char × List Char × List Char)

/-- `regex::Regex::is_match`. -/
def Regex.isMatch (re : Regex) (s : List Char) : Bool := (re.find s).isSome

/-- One step of `replace_all`, fuelled for termination: replace the leftmost
match, then continue after its end. -/
def replaceAllFuel (re : Regex) (rep : List Char → List Char) :
    Nat → List Char → List Char
  | 0, s => s
  | Nat.succ fuel, s =>
    match re.find s with
    | none => s
    | some (pre, m, post) => pre ++ rep m ++ replaceAllFuel re rep fuel post

/-- `regex::Regex::replace_all` with a per-occurrence replacement function
(the plugin's closure receives `&caps[0]`, the matched text). -/
def Regex.replaceAll (re : Regex) (rep : List Char → List Char)
    (s : List Char) : List Char :=
  replaceAllFuel re rep (s.length + 1) s

/-- Leftmost occurrence of a single character satisfying `p`; the matcher of
a one-character class pattern such as `[一-鿿]`. -/
def charClassFind (p : Char → Bool) : List Char →
    Option (List Char × List Char × List Char)
  | [] => none
  | c :: cs =>
    if p c then some ([], [c], cs)
    else
      match charClassFind p cs with
      | none => none
      | some (pre, m, post) => some (c :: pre, m, post)

/-- Matcher for a one-character class pattern. -/
def charClassRe (p : Char → Bool) : Regex := ⟨charClassFind p⟩

/-- Leftmost occurrence of a literal pattern. -/
def litFind (pat : List Char) : List Char →
    Option (List Char × List Char × List Char)
  | [] => none
  | c :: cs =>
    if pat.isPrefixOf (c :: cs) then some ([], pat, (c :: cs).drop pat.length)
    else
      match litFind pat cs with
      | none => none
      | some (pre, m, post) => some (c :: pre, m, post)

/-- Matcher for a literal pattern. -/
def litRe (pat : List Char) : Regex := ⟨litFind pat⟩

/-- `Config` (src/lib.rs lines 18-22): `replace_with: Option<String>`,
`matches: Vec<String>`; `Default` gives `None` and the empty list. -/
structure Config where
  replace_with : Option (List Char)
  «matches» : List String

/-- `Config::default()`. -/
def Config.default : Config := ⟨none, []⟩

/-- `RemoveInvalidContent` (src/lib.rs lines 24-27). -/
structure RemoveInvalidContent where
  matchers : List Regex
  replace_with : List Char

/-- The per-occurrence replacement closure of `replace_with`
(src/lib.rs lines 42-49): empty filler deletes the occurrence, otherwise the
filler is repeated `matched_str.len()` times — `len()` is the BYTE length of
the matched occurrence. -/
def fillerFor (t : RemoveInvalidContent) (matched : List Char) : List Char :=
  if t.replace_with = [] then [] else repeatN t.replace_with (utf8Len matched)

/-- `RemoveInvalidContent::replace_with` (src/lib.rs lines 37-50):
`Err(false)` when the matcher does not match, otherwise the global
replacement. -/
def RemoveInvalidContent.replaceWith (t : RemoveInvalidContent)
    (matcher : Regex) (s : List Char) : Except Bool (List Char) :=
  if matcher.isMatch s then .ok (matcher.replaceAll (fillerFor t) s)
  else .error false

/-- The effect of one rule on a text: the replacement when the rule matches,
the text itself otherwise (the `Err` branch of the visitor loops). -/
def applyRule (t : RemoveInvalidContent) (s : List Char) (m : Regex) :
    List Char :=
  match t.replaceWith m s with
  | .ok v => v
  | .error _ => s

/-- A swc source span (`lo`/`hi` byte positions). -/
structure Span where
  lo : Nat
  hi : Nat
deriving DecidableEq

/-- `DUMMY_SP`, the zero span. -/
def dummySpan : Span := ⟨0, 0⟩

/-- swc `Str`: a plain string literal with its span, decoded value and the
optional raw source form. -/
structure Str where
  span : Span
  value : List Char
  raw : Option (List Char)
deriving DecidableEq

/-- swc's `From<String> for Str`: builds a `Str` from the text alone, with
`DUMMY_SP` and no raw form — the `Str::from(new_value.to_string())` used in
`visit_mut_str` (src/lib.rs line 84). -/
def Str.fromText (v : List Char) : Str := ⟨dummySpan, v, none⟩

/-- Escape decoding of one backslash-escaped character. -/
def escChar (c : Char) : Char :=
  if c = 'n' then '\n' else if c = 't' then '\t' else if c = 'r' then '\r'
  else c

/-- Modelled from the spec: swc's `Str::from_tpl_raw` is outside this
repository's src/; the spec only requires that the cooked form be "the decoded
form of the current raw" text.  Modelled as backslash-escape decoding. -/
def fromTplRaw : List Char → List Char
  | [] => []
  | '\\' :: c :: rest => escChar c :: fromTplRaw rest
  | c :: rest => c :: fromTplRaw rest

/-- swc `TplElement`: one quasi segment of a template literal, with raw and
cooked forms. -/
structure TplElement where
  span : Span
  tail : Bool
  cooked : Option (List Char)
  raw : List Char
deriving DecidableEq

/-- swc `JSXText`: markup text content with raw and decoded value. -/
structure JSXText where
  span : Span
  value : List Char
  raw : List Char
deriving DecidableEq

/-- Body of the `visit_mut_str` loop (src/lib.rs lines 81-85): on a match,
the whole node is replaced by `Str::from(new_value)` (dummy span, raw
dropped); on `Err`, the node is left alone. -/
def strStep (t : RemoveInvalidContent) (n : Str) (m : Regex) : Str :=
  match t.replaceWith m n.value with
  | .ok v => Str.fromText v
  | .error _ => n

/-- `visit_mut_str` (src/lib.rs lines 80-87): run every matcher in order over
the node's current `value`.  String literals have no children, so the
trailing `visit_mut_children_with` is a no-op. -/
def visitStrNode (t : RemoveInvalidContent) (node : Str) : Str :=
  t.matchers.foldl (strStep t) node

/-- Body of the `visit_mut_tpl_element` loop (src/lib.rs lines 90-104): on a
match, rebuild the node keeping `span` and `tail`, installing the new raw and
the cooked form recomputed from it via `Str::from_tpl_raw`. -/
def tplStep (t : RemoveInvalidContent) (n : TplElement) (m : Regex) :
    TplElement :=
  match t.replaceWith m n.raw with
  | .ok v => { span := n.span, tail := n.tail, raw := v,
               cooked := some (fromTplRaw v) }
  | .error _ => n

/-- `visit_mut_tpl_element` (src/lib.rs lines 89-106): run every matcher in
order over the current `raw`. -/
def visitTplElementNode (t : RemoveInvalidContent) (node : TplElement) :
    TplElement :=
  t.matchers.foldl (tplStep t) node

/-- Body of the `visit_mut_jsx_text` loop (src/lib.rs lines 69-75): on a
match, set both `raw` and `value` to the new text. -/
def jsxStep (t : RemoveInvalidContent) (n : JSXText) (m : Regex) : JSXText :=
  match t.replaceWith m n.raw with
  | .ok v => { n with raw := v, value := v }
  | .error _ => n

/-- `visit_mut_jsx_text` (src/lib.rs lines 68-78): run every matcher in order
over the current `raw`. -/
def visitJSXTextNode (t : RemoveInvalidContent) (node : JSXText) : JSXText :=
  t.matchers.foldl (jsxStep t) node

/-- A JSX attribute: name plus optional string-literal value (the value is a
plain `Str`, reached by the default traversal and rewritten by
`visit_mut_str`). -/
structure JSXAttr where
  name : List Char
  value : Option Str
deriving DecidableEq

mutual
/-- Expressions, restricted to the shapes the claims exercise: string
literals, template literals, call expressions (with the dynamic-import
callee), JSX elements and inert identifiers. -/
inductive Expr where
  | strLit : Str → Expr
  | tpl : List TplElement → ExprList → Expr
  | call : Callee → ExprList → Expr
  | jsxElem : JSXElement → Expr
  | ident : List Char → Expr
inductive ExprList where
  | nil : ExprList
  | cons : Expr → ExprList → ExprList
/-- swc `Callee`: either the dynamic-`import` keyword or an expression. -/
inductive Callee where
  | importCallee : Callee
  | exprCallee : Expr → Callee
inductive JSXElement where
  | mk : List JSXAttr → JSXChildList → JSXElement
inductive JSXChildList where
  | nil : JSXChildList
  | cons : JSXChild → JSXChildList → JSXChildList
inductive JSXChild where
  | text : JSXText → JSXChild
  | elem : JSXElement → JSXChild
  | exprContainer : Expr → JSXChild
end

/-- swc `ImportSpecifier`: default, named (with optional string as-rename) or
namespace form. -/
inductive ImportSpecifier where
  | defaultSpec : List Char → ImportSpecifier
  | named : List Char → Option Str → ImportSpecifier
  | starAs : List Char → ImportSpecifier
deriving DecidableEq

/-- swc named-export specifier: original name and optional as-rename, either
of which may be a string. -/
inductive ExportSpecifier where
  | named : Str → Option Str → ExportSpecifier
deriving DecidableEq

/-- swc `DefaultDecl`: the function or class of an `export default`
declaration, its body abstracted to the expressions it contains. -/
inductive DefaultDecl where
  | fn : List Expr → DefaultDecl
  | cls : List Expr → DefaultDecl

/-- Top-level module items: the module-linkage forms the visitor skips, plus
expression statements. -/
inductive ModuleItem where
  | importDecl : List ImportSpecifier → Str → ModuleItem
  | exportAll : Str → ModuleItem
  | namedExport : List ExportSpecifier → Option Str → ModuleItem
  | exportDefaultDecl : DefaultDecl → ModuleItem
  | exprStmt : Expr → ModuleItem

/-- A parsed program: the module's item list. -/
abbrev Program := List ModuleItem

/-- JSX attribute traversal: the default walk reaches the attribute's string
value, which `visit_mut_str` rewrites. -/
def visitJSXAttr (t : RemoveInvalidContent) (a : JSXAttr) : JSXAttr :=
  { a with value := a.value.map (visitStrNode t) }

mutual
/-- The `VisitMut` traversal (src/lib.rs lines 55-107) over expressions.
`visit_mut_call_expr` recurses into children only when the callee is not the
dynamic-import form. -/
def visitExpr (t : RemoveInvalidContent) : Expr → Expr
  | .strLit s => .strLit (visitStrNode t s)
  | .tpl qs es => .tpl (qs.map (visitTplElementNode t)) (visitExprList t es)
  | .call .importCallee args => .call .importCallee args
  | .call (.exprCallee e) args =>
      .call (.exprCallee (visitExpr t e)) (visitExprList t args)
  | .jsxElem el => .jsxElem (visitJSXElement t el)
  | .ident s => .ident s
def visitExprList (t : RemoveInvalidContent) : ExprList → ExprList
  | .nil => .nil
  | .cons e es => .cons (visitExpr t e) (visitExprList t es)
def visitJSXElement (t : RemoveInvalidContent) : JSXElement → JSXElement
  | .mk attrs children =>
      .mk (attrs.map (visitJSXAttr t)) (visitJSXChildList t children)
def visitJSXChildList (t : RemoveInvalidContent) : JSXChildList → JSXChildList
  | .nil => .nil
  | .cons c cs => .cons (visitJSXChild t c) (visitJSXChildList t cs)
def visitJSXChild (t : RemoveInvalidContent) : JSXChild → JSXChild
  | .text x => .text (visitJSXTextNode t x)
  | .elem el => .elem (visitJSXElement t el)
  | .exprContainer e => .exprContainer (visitExpr t e)
end

/-- The traversal over module items.  The empty overrides
`visit_mut_export_all`, `visit_mut_named_export`,
`visit_mut_export_default_decl`, `visit_mut_import_decl` and
`visit_mut_import_specifier` (src/lib.rs lines 56-61) stop the walk, so those
items come back untouched. -/
def visitModuleItem (t : RemoveInvalidContent) : ModuleItem → ModuleItem
  | .importDecl specs src => .importDecl specs src
  | .exportAll src => .exportAll src
  | .namedExport specs src => .namedExport specs src
  | .exportDefaultDecl d => .exportDefaultDecl d
  | .exprStmt e => .exprStmt (visitExpr t e)

/-- `program.visit_mut_with(&mut RemoveInvalidContent::new(config))`: the
full-tree walk from the program root. -/
def visitProgram (t : RemoveInvalidContent) (prog : Program) : Program :=
  prog.map (visitModuleItem t)

/-- No configured matcher matches this text. -/
def noMatchText (t : RemoveInvalidContent) (s : List Char) : Bool :=
  t.matchers.all (fun m => (m.find s).isNone)

mutual
/-- Every text leaf in the expression is free of matches. -/
def noMatchExpr (t : RemoveInvalidContent) : Expr → Bool
  | .strLit s => noMatchText t s.value
  | .tpl qs es =>
      qs.all (fun q => noMatchText t q.raw) && noMatchExprList t es
  | .call .importCallee args => noMatchExprList t args
  | .call (.exprCallee e) args => noMatchExpr t e && noMatchExprList t args
  | .jsxElem el => noMatchJSXElement t el
  | .ident _ => true
def noMatchExprList (t : RemoveInvalidContent) : ExprList → Bool
  | .nil => true
  | .cons e es => noMatchExpr t e && noMatchExprList t es
def noMatchJSXElement (t : RemoveInvalidContent) : JSXElement → Bool
  | .mk attrs children =>
      attrs.all (fun a => a.value.all (fun s => noMatchText t s.value)) &&
        noMatchJSXChildList t children
def noMatchJSXChildList (t : RemoveInvalidContent) : JSXChildList → Bool
  | .nil => true
  | .cons c cs => noMatchJSXChild t c && noMatchJSXChildList t cs
def noMatchJSXChild (t : RemoveInvalidContent) : JSXChild → Bool
  | .text x => noMatchText t x.raw
  | .elem el => noMatchJSXElement t el
  | .exprContainer e => noMatchExpr t e
end

/-- Every text leaf in the module item is free of matches. -/
def noMatchModuleItem (t : RemoveInvalidContent) : ModuleItem → Bool
  | .importDecl specs src =>
      specs.all (fun sp =>
        match sp with
        | .named _ imp => imp.all (fun s => noMatchText t s.value)
        | _ => true) && noMatchText t src.value
  | .exportAll src => noMatchText t src.value
  | .namedExport specs src =>
      specs.all (fun sp =>
        match sp with
        | .named orig exp' =>
            noMatchText t orig.value && exp'.all (fun s => noMatchText t s.value))
        && src.all (fun s => noMatchText t s.value)
  | .exportDefaultDecl _ => true
  | .exprStmt e => noMatchExpr t e

/-- Every text leaf in the program is free of matches. -/
def noMatchProgram (t : RemoveInvalidContent) (prog : Program) : Bool :=
  prog.all (noMatchModuleItem t)

/-- `config.matches.iter().map(|x| Regex::new(x).unwrap()).collect()`
(src/lib.rs line 31): compile every pattern, aborting at the first failure.
Pattern compilation itself is the external `regex` crate, abstracted as the
`compile` argument. -/
def compileAll (compile : String → Option Regex) :
    List String → Except String (List Regex)
  | [] => .ok []
  | p :: ps =>
    match compile p with
    | none => .error p
    | some re =>
      match compileAll compile ps with
      | .error e => .error e
      | .ok rs => .ok (re :: rs)

/-- `RemoveInvalidContent::new` (src/lib.rs lines 29-35): compile all
patterns (a failure aborts setup — the `unwrap` panic — before any traversal)
and default the filler to the empty string. -/
def RemoveInvalidContent.new (compile : String → Option Regex)
    (config : Config) : Except String RemoveInvalidContent :=
  match compileAll compile config.«matches» with
  | .error e => .error e
  | .ok ms => .ok ⟨ms, config.replace_with.getD []⟩

/-- `process_transform` (src/lib.rs lines 111-123): the decoded configuration
is an `Option Config` (`null` decodes to `none`), defaulted with
`unwrap_or(Config::default())`; then the visitor built by `new` walks the
program.  A setup abort yields no program at all. -/
def process_transform (compile : String → Option Regex)
    (decoded : Option Config) (program : Program) : Except String Program :=
  match RemoveInvalidContent.new compile (decoded.getD Config.default) with
  | .error e => .error e
  | .ok t => .ok (visitProgram t program)

/-! ### Helper lemmas about the substitution engine -/

theorem replaceWith_error (t : RemoveInvalidContent) (m : Regex)
    (s : List Char) (h : m.find s = none) : t.replaceWith m s = .error false := by
  simp [RemoveInvalidContent.replaceWith, Regex.isMatch, h]

theorem replaceWith_ok (t : RemoveInvalidContent) (m : Regex) (s : List Char)
    (h : (m.find s).isSome) :
    t.replaceWith m s = .ok (m.replaceAll (fillerFor t) s) := by
  simp [RemoveInvalidContent.replaceWith, Regex.isMatch, h]

theorem noMatchText_iff (t : RemoveInvalidContent) (s : List Char) :
    noMatchText t s = true ↔ ∀ m ∈ t.matchers, m.find s = none := by
  simp [noMatchText, Option.isNone_iff_eq_none]

theorem applyRule_of_none (t : RemoveInvalidContent) (s : List Char)
    (m : Regex) (h : m.find s = none) : applyRule t s m = s := by
  simp [applyRule, replaceWith_error t m s h]

/-! ### The three leaf visitors leave a node untouched when nothing matches -/

theorem foldl_strStep_fix (t : RemoveInvalidContent) (node : Str) :
    ∀ ms : List Regex, (∀ m ∈ ms, m.find node.value = none) →
      ms.foldl (strStep t) node = node
  | [], _ => rfl
  | m :: ms, h => by
      have h1 : strStep t node m = node := by
        simp [strStep, replaceWith_error t m _ (h m (by simp))]
      rw [List.foldl_cons, h1]
      exact foldl_strStep_fix t node ms (fun m' hm' => h m' (by simp [hm']))

theorem visitStrNode_fix (t : RemoveInvalidContent) (node : Str)
    (h : noMatchText t node.value = true) : visitStrNode t node = node :=
  foldl_strStep_fix t node t.matchers ((noMatchText_iff t node.value).mp h)

theorem foldl_tplStep_fix (t : RemoveInvalidContent) (node : TplElement) :
    ∀ ms : List Regex, (∀ m ∈ ms, m.find node.raw = none) →
      ms.foldl (tplStep t) node = node
  | [], _ => rfl
  | m :: ms, h => by
      have h1 : tplStep t node m = node := by
        simp [tplStep, replaceWith_error t m _ (h m (by simp))]
      rw [List.foldl_cons, h1]
      exact foldl_tplStep_fix t node ms (fun m' hm' => h m' (by simp [hm']))

theorem visitTplElementNode_fix (t : RemoveInvalidContent) (node : TplElement)
    (h : noMatchText t node.raw = true) : visitTplElementNode t node = node :=
  foldl_tplStep_fix t node t.matchers ((noMatchText_iff t node.raw).mp h)

theorem foldl_jsxStep_fix (t : RemoveInvalidContent) (node : JSXText) :
    ∀ ms : List Regex, (∀ m ∈ ms, m.find node.raw = none) →
      ms.foldl (jsxStep t) node = node
  | [], _ => rfl
  | m :: ms, h => by
      have h1 : jsxStep t node m = node := by
        simp [jsxStep, replaceWith_error t m _ (h m (by simp))]
      rw [List.foldl_cons, h1]
      exact foldl_jsxStep_fix t node ms (fun m' hm' => h m' (by simp [hm']))

theorem visitJSXTextNode_fix (t : RemoveInvalidContent) (node : JSXText)
    (h : noMatchText t node.raw = true) : visitJSXTextNode t node = node :=
  foldl_jsxStep_fix t node t.matchers ((noMatchText_iff t node.raw).mp h)

/-! ### Text-level characterization of the visitor loops -/

theorem strStep_value (t : RemoveInvalidContent) (n : Str) (m : Regex) :
    (strStep t n m).value = applyRule t n.value m := by
  unfold strStep applyRule
  cases t.replaceWith m n.value <;> simp [Str.fromText]

theorem foldl_strStep_value (t : RemoveInvalidContent) :
    ∀ (ms : List Regex) (n : Str),
      (ms.foldl (strStep t) n).value = ms.foldl (applyRule t) n.value
  | [], _ => rfl
  | m :: ms, n => by
      rw [List.foldl_cons, List.foldl_cons, foldl_strStep_value t ms,
        strStep_value]

theorem visitStrNode_value (t : RemoveInvalidContent) (node : Str) :
    (visitStrNode t node).value = t.matchers.foldl (applyRule t) node.value :=
  foldl_strStep_value t t.matchers node

theorem tplStep_raw (t : RemoveInvalidContent) (n : TplElement) (m : Regex) :
    (tplStep t n m).raw = applyRule t n.raw m := by
  unfold tplStep applyRule
  cases t.replaceWith m n.raw <;> simp

theorem foldl_tplStep_raw (t : RemoveInvalidContent) :
    ∀ (ms : List Regex) (n : TplElement),
      (ms.foldl (tplStep t) n).raw = ms.foldl (applyRule t) n.raw
  | [], _ => rfl
  | m :: ms, n => by
      rw [List.foldl_cons, List.foldl_cons, foldl_tplStep_raw t ms, tplStep_raw]

theorem visitTplElementNode_raw (t : RemoveInvalidContent) (node : TplElement) :
    (visitTplElementNode t node).raw = t.matchers.foldl (applyRule t) node.raw :=
  foldl_tplStep_raw t t.matchers node

theorem jsxStep_raw (t : RemoveInvalidContent) (n : JSXText) (m : Regex) :
    (jsxStep t n m).raw = applyRule t n.raw m := by
  unfold jsxStep applyRule
  cases t.replaceWith m n.raw <;> simp

theorem foldl_jsxStep_raw (t : RemoveInvalidContent) :
    ∀ (ms : List Regex) (n : JSXText),
      (ms.foldl (jsxStep t) n).raw = ms.foldl (applyRule t) n.raw
  | [], _ => rfl
  | m :: ms, n => by
      rw [List.foldl_cons, List.foldl_cons, foldl_jsxStep_raw t ms, jsxStep_raw]

theorem visitJSXTextNode_raw (t : RemoveInvalidContent) (node : JSXText) :
    (visitJSXTextNode t node).raw = t.matchers.foldl (applyRule t) node.raw :=
  foldl_jsxStep_raw t t.matchers node

/-! ### Shape of rewritten nodes -/

theorem strStep_shape (t : RemoveInvalidContent) (n : Str) (m : Regex) :
    strStep t n m = n ∨ ∃ v, strStep t n m = Str.fromText v := by
  unfold strStep
  split
  · exact .inr ⟨_, rfl⟩
  · exact .inl rfl

theorem foldl_strStep_shape (t : RemoveInvalidContent) :
    ∀ (ms : List Regex) (n : Str),
      ms.foldl (strStep t) n = n ∨ ∃ v, ms.foldl (strStep t) n = Str.fromText v
  | [], _ => .inl rfl
  | m :: ms, n => by
      rw [List.foldl_cons]
      rcases foldl_strStep_shape t ms (strStep t n m) with h | ⟨v, hv⟩
      · rw [h]; exact strStep_shape t n m
      · exact .inr ⟨v, hv⟩

/-- The invariant the template-element loop maintains: span and tail are those
of the original node, and unless the node is still the original, the cooked
field is the decoding of the current raw field. -/
def TplInv (node n : TplElement) : Prop :=
  n.span = node.span ∧ n.tail = node.tail ∧
    (n = node ∨ n.cooked = some (fromTplRaw n.raw))

theorem tplStep_inv (t : RemoveInvalidContent) (node n : TplElement)
    (m : Regex) (h : TplInv node n) : TplInv node (tplStep t n m) := by
  obtain ⟨hs, ht, hc⟩ := h
  unfold tplStep
  split
  · exact ⟨hs, ht, .inr rfl⟩
  · exact ⟨hs, ht, hc⟩

theorem foldl_tplStep_inv (t : RemoveInvalidContent) (node : TplElement) :
    ∀ (ms : List Regex) (n : TplElement), TplInv node n →
      TplInv node (ms.foldl (tplStep t) n)
  | [], _, h => h
  | m :: ms, n, h => by
      rw [List.foldl_cons]
      exact foldl_tplStep_inv t node ms _ (tplStep_inv t node n m h)

theorem visitTplElementNode_inv (t : RemoveInvalidContent) (node : TplElement) :
    TplInv node (visitTplElementNode t node) :=
  foldl_tplStep_inv t node t.matchers node ⟨rfl, rfl, .inl rfl⟩

/-! ### Tree-level identity lemmas -/

theorem map_fix {α : Type} (f : α → α) :
    ∀ l : List α, (∀ a ∈ l, f a = a) → l.map f = l
  | [], _ => rfl
  | a :: l, h => by
      rw [List.map_cons, h a (by simp),
        map_fix f l (fun a' ha' => h a' (by simp [ha']))]

theorem visitJSXAttr_noMatch (t : RemoveInvalidContent) (a : JSXAttr)
    (h : a.value.all (fun s => noMatchText t s.value) = true) :
    visitJSXAttr t a = a := by
  obtain ⟨name, value⟩ := a
  cases value with
  | none => simp [visitJSXAttr]
  | some s =>
      simp only [Option.all_some] at h
      simp [visitJSXAttr, visitStrNode_fix t s h]

mutual
theorem visitExpr_noMatch (t : RemoveInvalidContent) :
    ∀ e : Expr, noMatchExpr t e = true → visitExpr t e = e
  | .strLit s, h => by
      simp only [noMatchExpr] at h
      simp only [visitExpr, visitStrNode_fix t s h]
  | .tpl qs es, h => by
      simp only [noMatchExpr, Bool.and_eq_true, List.all_eq_true] at h
      simp only [visitExpr, visitExprList_noMatch t es h.2,
        map_fix (visitTplElementNode t) qs
          (fun q hq => visitTplElementNode_fix t q (h.1 q hq))]
  | .call .importCallee args, _ => by
      simp only [visitExpr]
  | .call (.exprCallee e) args, h => by
      simp only [noMatchExpr, Bool.and_eq_true] at h
      simp only [visitExpr, visitExpr_noMatch t e h.1,
        visitExprList_noMatch t args h.2]
  | .jsxElem el, h => by
      simp only [noMatchExpr] at h
      simp only [visitExpr, visitJSXElement_noMatch t el h]
  | .ident s, _ => rfl
theorem visitExprList_noMatch (t : RemoveInvalidContent) :
    ∀ es : ExprList, noMatchExprList t es = true → visitExprList t es = es
  | .nil, _ => rfl
  | .cons e es, h => by
      simp only [noMatchExprList, Bool.and_eq_true] at h
      simp only [visitExprList, visitExpr_noMatch t e h.1,
        visitExprList_noMatch t es h.2]
theorem visitJSXElement_noMatch (t : RemoveInvalidContent) :
    ∀ el : JSXElement, noMatchJSXElement t el = true → visitJSXElement t el = el
  | .mk attrs children, h => by
      simp only [noMatchJSXElement, Bool.and_eq_true, List.all_eq_true] at h
      simp only [visitJSXElement, visitJSXChildList_noMatch t children h.2,
        map_fix (visitJSXAttr t) attrs
          (fun a ha => visitJSXAttr_noMatch t a (h.1 a ha))]
theorem visitJSXChildList_noMatch (t : RemoveInvalidContent) :
    ∀ cs : JSXChildList, noMatchJSXChildList t cs = true →
      visitJSXChildList t cs = cs
  | .nil, _ => rfl
  | .cons c cs, h => by
      simp only [noMatchJSXChildList, Bool.and_eq_true] at h
      simp only [visitJSXChildList, visitJSXChild_noMatch t c h.1,
        visitJSXChildList_noMatch t cs h.2]
theorem visitJSXChild_noMatch (t : RemoveInvalidContent) :
    ∀ c : JSXChild, noMatchJSXChild t c = true → visitJSXChild t c = c
  | .text x, h => by
      simp only [noMatchJSXChild] at h
      simp only [visitJSXChild, visitJSXTextNode_fix t x h]
  | .elem el, h => by
      simp only [noMatchJSXChild] at h
      simp only [visitJSXChild, visitJSXElement_noMatch t el h]
  | .exprContainer e, h => by
      simp only [noMatchJSXChild] at h
      simp only [visitJSXChild, visitExpr_noMatch t e h]
end

theorem visitModuleItem_noMatch (t : RemoveInvalidContent) :
    ∀ it : ModuleItem, noMatchModuleItem t it = true →
      visitModuleItem t it = it
  | .importDecl _ _, _ => rfl
  | .exportAll _, _ => rfl
  | .namedExport _ _, _ => rfl
  | .exportDefaultDecl _, _ => rfl
  | .exprStmt e, h => by
      simp only [noMatchModuleItem] at h
      simp only [visitModuleItem, visitExpr_noMatch t e h]

theorem visitProgram_noMatch (t : RemoveInvalidContent) (prog : Program)
    (h : noMatchProgram t prog = true) : visitProgram t prog = prog := by
  rw [noMatchProgram, List.all_eq_true] at h
  exact map_fix (visitModuleItem t) prog
    (fun it hit => visitModuleItem_noMatch t it (h it hit))

/-- With no compiled matcher, no text ever matches. -/
theorem noMatchText_empty (t : RemoveInvalidContent) (h : t.matchers = [])
    (s : List Char) : noMatchText t s = true := by
  simp [noMatchText, h]

mutual
theorem visitExpr_emptyMatchers (t : RemoveInvalidContent)
    (h : t.matchers = []) : ∀ e : Expr, visitExpr t e = e
  | .strLit s => by
      simp only [visitExpr, visitStrNode_fix t s (noMatchText_empty t h _)]
  | .tpl qs es => by
      simp only [visitExpr, visitExprList_emptyMatchers t h es,
        map_fix (visitTplElementNode t) qs
          (fun q _ => visitTplElementNode_fix t q (noMatchText_empty t h _))]
  | .call .importCallee args => by
      simp only [visitExpr]
  | .call (.exprCallee e) args => by
      simp only [visitExpr, visitExpr_emptyMatchers t h e,
        visitExprList_emptyMatchers t h args]
  | .jsxElem el => by
      simp only [visitExpr, visitJSXElement_emptyMatchers t h el]
  | .ident s => rfl
theorem visitExprList_emptyMatchers (t : RemoveInvalidContent)
    (h : t.matchers = []) : ∀ es : ExprList, visitExprList t es = es
  | .nil => rfl
  | .cons e es => by
      simp only [visitExprList, visitExpr_emptyMatchers t h e,
        visitExprList_emptyMatchers t h es]
theorem visitJSXElement_emptyMatchers (t : RemoveInvalidContent)
    (h : t.matchers = []) : ∀ el : JSXElement, visitJSXElement t el = el
  | .mk attrs children => by
      have hattr : ∀ a ∈ attrs, visitJSXAttr t a = a := by
        rintro ⟨name, value⟩ _
        cases value with
        | none => simp [visitJSXAttr]
        | some s => simp [visitJSXAttr,
            visitStrNode_fix t s (noMatchText_empty t h _)]
      simp only [visitJSXElement, visitJSXChildList_emptyMatchers t h children,
        map_fix (visitJSXAttr t) attrs hattr]
theorem visitJSXChildList_emptyMatchers (t : RemoveInvalidContent)
    (h : t.matchers = []) : ∀ cs : JSXChildList, visitJSXChildList t cs = cs
  | .nil => rfl
  | .cons c cs => by
      simp only [visitJSXChildList, visitJSXChild_emptyMatchers t h c,
        visitJSXChildList_emptyMatchers t h cs]
theorem visitJSXChild_emptyMatchers (t : RemoveInvalidContent)
    (h : t.matchers = []) : ∀ c : JSXChild, visitJSXChild t c = c
  | .text x => by
      simp only [visitJSXChild, visitJSXTextNode_fix t x (noMatchText_empty t h _)]
  | .elem el => by
      simp only [visitJSXChild, visitJSXElement_emptyMatchers t h el]
  | .exprContainer e => by
      simp only [visitJSXChild, visitExpr_emptyMatchers t h e]
end

theorem visitModuleItem_emptyMatchers (t : RemoveInvalidContent)
    (h : t.matchers = []) : ∀ it : ModuleItem, visitModuleItem t it = it
  | .importDecl _ _ => rfl
  | .exportAll _ => rfl
  | .namedExport _ _ => rfl
  | .exportDefaultDecl _ => rfl
  | .exprStmt e => by
      simp only [visitModuleItem, visitExpr_emptyMatchers t h e]

theorem visitProgram_emptyMatchers (t : RemoveInvalidContent)
    (h : t.matchers = []) (prog : Program) : visitProgram t prog = prog :=
  map_fix (visitModuleItem t) prog
    (fun it _ => visitModuleItem_emptyMatchers t h it)

/-! ### Character-class matchers: deletion is filtering -/

theorem charClassRe_find (p : Char → Bool) (s : List Char) :
    (charClassRe p).find s = charClassFind p s := rfl

theorem litRe_find (pat s : List Char) : (litRe pat).find s = litFind pat s := rfl

theorem charClassFind_eq_none (p : Char → Bool) :
    ∀ s : List Char, charClassFind p s = none → ∀ c ∈ s, p c = false
  | [], _, c, hc => by simp at hc
  | a :: s, h, c, hc => by
      rw [charClassFind] at h
      by_cases hp : p a
      · rw [if_pos hp] at h; simp at h
      · rw [if_neg hp] at h
        rcases hfind : charClassFind p s with _ | ⟨pre, m, post⟩
        · rcases List.mem_cons.mp hc with rfl | hc'
          · simpa using hp
          · exact charClassFind_eq_none p s hfind c hc'
        · rw [hfind] at h; simp at h

theorem charClassFind_of_all_false (p : Char → Bool) :
    ∀ s : List Char, (∀ c ∈ s, p c = false) → charClassFind p s = none
  | [], _ => rfl
  | a :: s, h => by
      rw [charClassFind, if_neg (by simp [h a (by simp)]),
        charClassFind_of_all_false p s (fun c hc => h c (by simp [hc]))]

theorem charClassFind_eq_some (p : Char → Bool) :
    ∀ (s pre m post : List Char), charClassFind p s = some (pre, m, post) →
      s = pre ++ m ++ post ∧ (∀ x ∈ pre, p x = false) ∧
        ∃ c, m = [c] ∧ p c = true
  | [], _, _, _, h => by simp [charClassFind] at h
  | a :: s, pre, m, post, h => by
      rw [charClassFind] at h
      by_cases hp : p a
      · rw [if_pos hp] at h
        simp only [Option.some.injEq, Prod.mk.injEq] at h
        obtain ⟨h1, h2, h3⟩ := h
        subst h1; subst h2; subst h3
        exact ⟨by simp, by simp, a, rfl, hp⟩
      · rw [if_neg hp] at h
        rcases hfind : charClassFind p s with _ | ⟨pre', m', post'⟩
        · rw [hfind] at h; simp at h
        · rw [hfind] at h
          simp only [Option.some.injEq, Prod.mk.injEq] at h
          obtain ⟨h1, h2, h3⟩ := h
          obtain ⟨hs, hpre, c, hm, hc⟩ :=
            charClassFind_eq_some p s pre' m' post' hfind
          subst h1; subst h2; subst h3
          refine ⟨by simp [hs], ?_, c, hm, hc⟩
          intro x hx
          rcases List.mem_cons.mp hx with rfl | hx'
          · simpa using hp
          · exact hpre x hx'

theorem replaceAllFuel_succ_of_none (re : Regex) (rep : List Char → List Char)
    (fuel : Nat) (s : List Char) (h : re.find s = none) :
    replaceAllFuel re rep (fuel + 1) s = s := by
  rw [replaceAllFuel, h]

theorem replaceAllFuel_succ_of_some (re : Regex) (rep : List Char → List Char)
    (fuel : Nat) (s pre m post : List Char)
    (h : re.find s = some (pre, m, post)) :
    replaceAllFuel re rep (fuel + 1) s =
      pre ++ rep m ++ replaceAllFuel re rep fuel post := by
  rw [replaceAllFuel, h]

theorem replaceAllFuel_charClass (p : Char → Bool)
    (rep : List Char → List Char) (hrep : ∀ x, rep x = []) :
    ∀ (fuel : Nat) (s : List Char), s.length ≤ fuel →
      replaceAllFuel (charClassRe p) rep fuel s = s.filter (fun c => !p c)
  | 0, s, h => by
      have hs : s = [] := List.eq_nil_of_length_eq_zero (Nat.le_zero.mp h)
      subst hs; rfl
  | fuel + 1, s, h => by
      rcases hfind : charClassFind p s with _ | ⟨pre, m, post⟩
      · rw [replaceAllFuel_succ_of_none _ rep fuel s hfind]
        have hall := charClassFind_eq_none p s hfind
        exact (List.filter_eq_self.mpr (fun a ha => by simp [hall a ha])).symm
      · obtain ⟨hs, hpre, c, hm, hc⟩ := charClassFind_eq_some p s pre m post hfind
        rw [replaceAllFuel_succ_of_some _ rep fuel s pre m post hfind]
        subst hm; subst hs
        have hlen : post.length ≤ fuel := by
          simp only [List.length_append, List.length_cons,
            List.length_singleton] at h
          omega
        rw [replaceAllFuel_charClass p rep hrep fuel post hlen, hrep]
        have hfilter : List.filter (fun x => !p x) pre = pre :=
          List.filter_eq_self.mpr (fun a ha => by simp [hpre a ha])
        simp [List.filter_append, hc, hfilter]

theorem replaceAll_charClass (p : Char → Bool) (rep : List Char → List Char)
    (hrep : ∀ x, rep x = []) (s : List Char) :
    (charClassRe p).replaceAll rep s = s.filter (fun c => !p c) :=
  replaceAllFuel_charClass p rep hrep (s.length + 1) s (Nat.le_succ _)

theorem fillerFor_empty (t : RemoveInvalidContent)
    (hf : t.replace_with = []) (x : List Char) : fillerFor t x = [] := by
  simp [fillerFor, hf]

theorem applyRule_charClass (t : RemoveInvalidContent)
    (hf : t.replace_with = []) (p : Char → Bool) (s : List Char) :
    applyRule t s (charClassRe p) = s.filter (fun c => !p c) := by
  by_cases hm : (charClassRe p).isMatch s
  · rw [applyRule, replaceWith_ok t _ s hm,
      replaceAll_charClass p _ (fillerFor_empty t hf) s]
  · have hnone : (charClassRe p).find s = none := by
      cases hfi : (charClassRe p).find s with
      | none => rfl
      | some v => simp only [Regex.isMatch, hfi] at hm; simp at hm
    rw [applyRule_of_none t s _ hnone]
    exact (List.filter_eq_self.mpr (fun a ha => by
      simp [charClassFind_eq_none p s hnone a ha])).symm

theorem foldl_applyRule_subset (t : RemoveInvalidContent)
    (hf : t.replace_with = []) :
    ∀ ms : List Regex, (∀ m ∈ ms, ∃ p, m = charClassRe p) →
      ∀ (s : List Char) (x : Char), x ∈ ms.foldl (applyRule t) s → x ∈ s
  | [], _, _, _, hx => hx
  | m₀ :: ms, h, s, x, hx => by
      obtain ⟨p₀, rfl⟩ := h m₀ (by simp)
      rw [List.foldl_cons, applyRule_charClass t hf p₀ s] at hx
      exact List.filter_subset' _ (foldl_applyRule_subset t hf ms
        (fun m hm => h m (by simp [hm])) _ x hx)

theorem foldl_applyRule_noMatch (t : RemoveInvalidContent)
    (hf : t.replace_with = []) :
    ∀ ms : List Regex, (∀ m ∈ ms, ∃ p, m = charClassRe p) →
      ∀ (s : List Char), ∀ m ∈ ms, m.find (ms.foldl (applyRule t) s) = none
  | [], _, _, m, hm => by simp at hm
  | m₀ :: ms, h, s, m, hm => by
      obtain ⟨p₀, hp₀⟩ := h m₀ (by simp)
      rcases List.mem_cons.mp hm with rfl | hm'
      · subst hp₀
        rw [List.foldl_cons, applyRule_charClass t hf p₀ s, charClassRe_find]
        apply charClassFind_of_all_false
        intro c hc
        have hmem : c ∈ s.filter (fun c => !p₀ c) :=
          foldl_applyRule_subset t hf ms
            (fun m hm => h m (by simp [hm])) _ c hc
        have := List.of_mem_filter hmem
        simpa using this
      · rw [List.foldl_cons]
        exact foldl_applyRule_noMatch t hf ms
          (fun m' hm'' => h m' (by simp [hm''])) _ m hm'

/-! ### Idempotence of the leaf visitors for deletion-based char classes -/

theorem visitStrNode_idem (t : RemoveInvalidContent)
    (hf : t.replace_with = [])
    (hcc : ∀ m ∈ t.matchers, ∃ p, m = charClassRe p) (node : Str) :
    visitStrNode t (visitStrNode t node) = visitStrNode t node := by
  apply foldl_strStep_fix
  intro m hm
  rw [visitStrNode_value]
  exact foldl_applyRule_noMatch t hf t.matchers hcc node.value m hm

theorem visitTplElementNode_idem (t : RemoveInvalidContent)
    (hf : t.replace_with = [])
    (hcc : ∀ m ∈ t.matchers, ∃ p, m = charClassRe p) (node : TplElement) :
    visitTplElementNode t (visitTplElementNode t node) =
      visitTplElementNode t node := by
  apply foldl_tplStep_fix
  intro m hm
  rw [visitTplElementNode_raw]
  exact foldl_applyRule_noMatch t hf t.matchers hcc node.raw m hm

theorem visitJSXTextNode_idem (t : RemoveInvalidContent)
    (hf : t.replace_with = [])
    (hcc : ∀ m ∈ t.matchers, ∃ p, m = charClassRe p) (node : JSXText) :
    visitJSXTextNode t (visitJSXTextNode t node) = visitJSXTextNode t node := by
  apply foldl_jsxStep_fix
  intro m hm
  rw [visitJSXTextNode_raw]
  exact foldl_applyRule_noMatch t hf t.matchers hcc node.raw m hm

theorem visitJSXAttr_idem (t : RemoveInvalidContent)
    (hf : t.replace_with = [])
    (hcc : ∀ m ∈ t.matchers, ∃ p, m = charClassRe p) (a : JSXAttr) :
    visitJSXAttr t (visitJSXAttr t a) = visitJSXAttr t a := by
  obtain ⟨name, value⟩ := a
  cases value with
  | none => simp [visitJSXAttr]
  | some s => simp [visitJSXAttr, visitStrNode_idem t hf hcc s]

theorem map_congr_fn {α β : Type} (f g : α → β) :
    ∀ l : List α, (∀ a ∈ l, f a = g a) → l.map f = l.map g
  | [], _ => rfl
  | a :: l, h => by
      rw [List.map_cons, List.map_cons, h a (by simp),
        map_congr_fn f g l (fun a' ha' => h a' (by simp [ha']))]

mutual
theorem visitExpr_idem (t : RemoveInvalidContent) (hf : t.replace_with = [])
    (hcc : ∀ m ∈ t.matchers, ∃ p, m = charClassRe p) :
    ∀ e : Expr, visitExpr t (visitExpr t e) = visitExpr t e
  | .strLit s => by
      simp only [visitExpr, visitStrNode_idem t hf hcc s]
  | .tpl qs es => by
      simp only [visitExpr, visitExprList_idem t hf hcc es, List.map_map]
      rw [map_congr_fn (visitTplElementNode t ∘ visitTplElementNode t)
        (visitTplElementNode t) qs
        (fun q _ => by
          simp only [Function.comp_apply, visitTplElementNode_idem t hf hcc q])]
  | .call .importCallee args => by simp only [visitExpr]
  | .call (.exprCallee e) args => by
      simp only [visitExpr, visitExpr_idem t hf hcc e,
        visitExprList_idem t hf hcc args]
  | .jsxElem el => by
      simp only [visitExpr, visitJSXElement_idem t hf hcc el]
  | .ident s => rfl
theorem visitExprList_idem (t : RemoveInvalidContent) (hf : t.replace_with = [])
    (hcc : ∀ m ∈ t.matchers, ∃ p, m = charClassRe p) :
    ∀ es : ExprList, visitExprList t (visitExprList t es) = visitExprList t es
  | .nil => rfl
  | .cons e es => by
      simp only [visitExprList, visitExpr_idem t hf hcc e,
        visitExprList_idem t hf hcc es]
theorem visitJSXElement_idem (t : RemoveInvalidContent)
    (hf : t.replace_with = [])
    (hcc : ∀ m ∈ t.matchers, ∃ p, m = charClassRe p) :
    ∀ el : JSXElement,
      visitJSXElement t (visitJSXElement t el) = visitJSXElement t el
  | .mk attrs children => by
      simp only [visitJSXElement, visitJSXChildList_idem t hf hcc children,
        List.map_map]
      rw [map_congr_fn (visitJSXAttr t ∘ visitJSXAttr t) (visitJSXAttr t) attrs
        (fun a _ => by
          simp only [Function.comp_apply, visitJSXAttr_idem t hf hcc a])]
theorem visitJSXChildList_idem (t : RemoveInvalidContent)
    (hf : t.replace_with = [])
    (hcc : ∀ m ∈ t.matchers, ∃ p, m = charClassRe p) :
    ∀ cs : JSXChildList,
      visitJSXChildList t (visitJSXChildList t cs) = visitJSXChildList t cs
  | .nil => rfl
  | .cons c cs => by
      simp only [visitJSXChildList, visitJSXChild_idem t hf hcc c,
        visitJSXChildList_idem t hf hcc cs]
theorem visitJSXChild_idem (t : RemoveInvalidContent)
    (hf : t.replace_with = [])
    (hcc : ∀ m ∈ t.matchers, ∃ p, m = charClassRe p) :
    ∀ c : JSXChild, visitJSXChild t (visitJSXChild t c) = visitJSXChild t c
  | .text x => by
      simp only [visitJSXChild, visitJSXTextNode_idem t hf hcc x]
  | .elem el => by
      simp only [visitJSXChild, visitJSXElement_idem t hf hcc el]
  | .exprContainer e => by
      simp only [visitJSXChild, visitExpr_idem t hf hcc e]
end

theorem visitModuleItem_idem (t : RemoveInvalidContent)
    (hf : t.replace_with = [])
    (hcc : ∀ m ∈ t.matchers, ∃ p, m = charClassRe p) :
    ∀ it : ModuleItem,
      visitModuleItem t (visitModuleItem t it) = visitModuleItem t it
  | .importDecl _ _ => rfl
  | .exportAll _ => rfl
  | .namedExport _ _ => rfl
  | .exportDefaultDecl _ => rfl
  | .exprStmt e => by
      simp only [visitModuleItem, visitExpr_idem t hf hcc e]

theorem visitProgram_idem (t : RemoveInvalidContent)
    (hf : t.replace_with = [])
    (hcc : ∀ m ∈ t.matchers, ∃ p, m = charClassRe p) (prog : Program) :
    visitProgram t (visitProgram t prog) = visitProgram t prog := by
  simp only [visitProgram, List.map_map]
  exact map_congr_fn (visitModuleItem t ∘ visitModuleItem t)
    (visitModuleItem t) prog
    (fun it _ => by
      simp only [Function.comp_apply, visitModuleItem_idem t hf hcc it])

/-! ### Length of the filler expansion, and setup success -/

theorem repeatN_length (s : List Char) (n : Nat) :
    (repeatN s n).length = n * s.length := by
  induction n with
  | zero => simp [repeatN]
  | succ k ih =>
      rw [repeatN, List.replicate_succ, List.flatten_cons, List.length_append]
      rw [repeatN] at ih
      rw [ih]
      ring

theorem fillerFor_length (t : RemoveInvalidContent)
    (h : t.replace_with ≠ []) (m : List Char) :
    (fillerFor t m).length = utf8Len m * t.replace_with.length := by
  rw [fillerFor, if_neg h, repeatN_length]

theorem compileAll_ok_iff (compile : String → Option Regex) :
    ∀ ps : List String,
      (∃ rs, compileAll compile ps = .ok rs) ↔ ∀ p ∈ ps, (compile p).isSome
  | [] => by simp [compileAll]
  | p :: ps => by
      constructor
      · rintro ⟨rs, hrs⟩ q hq
        rw [compileAll] at hrs
        cases hc : compile p with
        | none => rw [hc] at hrs; simp at hrs
        | some re =>
            rw [hc] at hrs
            cases hall : compileAll compile ps with
            | error e => rw [hall] at hrs; simp at hrs
            | ok rs' =>
                rcases List.mem_cons.mp hq with rfl | hq'
                · simp [hc]
                · exact (compileAll_ok_iff compile ps).mp ⟨rs', hall⟩ q hq'
      · intro h
        have hp := h p (by simp)
        obtain ⟨re, hre⟩ := Option.isSome_iff_exists.mp hp
        obtain ⟨rs, hrs⟩ :=
          (compileAll_ok_iff compile ps).mpr (fun q hq => h q (by simp [hq]))
        exact ⟨re :: rs, by rw [compileAll, hre, hrs]⟩

/-! ### Concrete fixtures used by witnesses and counterexamples -/

/-- The CJK-ideograph character class of the plugin's own tests,
`[一-鿿]`. -/
def isCJK (c : Char) : Bool := 0x4E00 ≤ c.val && c.val ≤ 0x9FFF

/-- Deletion-based transform whose single rule is the literal pattern `ab`. -/
def tAB : RemoveInvalidContent := ⟨[litRe ['a', 'b']], []⟩

/-- Deletion-based transform whose single rule is the CJK character class. -/
def tCJKdel : RemoveInvalidContent := ⟨[charClassRe isCJK], []⟩

/-- A program holding the single string literal `"aabb"`. -/
def progAB : Program := [.exprStmt (.strLit ⟨⟨1, 5⟩, ['a', 'a', 'b', 'b'], none⟩)]

/-- A program holding the single string literal `"a中b"`. -/
def progCJK : Program := [.exprStmt (.strLit ⟨⟨0, 9⟩, ['a', '中', 'b'], none⟩)]

/-- A string literal whose text is a CJK ideograph. -/
def strNodeCJK : Str := ⟨⟨4, 9⟩, ['中'], some ['中']⟩

/-- A template segment whose raw text is a CJK ideograph. -/
def tplNodeCJK : TplElement := ⟨⟨2, 7⟩, false, some ['中'], ['中']⟩

/-- Value of the first string-literal statement of a program, used to tell
two concrete transform outputs apart. -/
def firstStrValue : Program → Option (List Char)
  | .exprStmt (.strLit s) :: _ => some s.value
  | _ => none

/-! ## Claims -/

/-- C1, counterexample: the claim says a matched occurrence of character
length n with a non-empty filler is replaced by a span of character length n.
With the one-character filler `*` and the pattern `中`, the text `中` is one
matched occurrence of character length 1, yet the engine outputs `***`
(character length 3): `replace_with` repeats the filler `matched_str.len()`
times, and `len()` counts the 3 UTF-8 BYTES of `中`. -/
theorem c1_counterexample :
    (RemoveInvalidContent.replaceWith ⟨[litRe ['中']], ['*']⟩ (litRe ['中'])
        ['中'] = .ok ['*', '*', '*']) ∧
      (['*', '*', '*'] : List Char).length ≠ (['中'] : List Char).length :=
  ⟨rfl, by decide⟩

/-- C1, amended: with a non-empty filler, each matched occurrence is replaced
by the filler string repeated `matched_str.len()` times, where `len()` is the
UTF-8 BYTE length of the occurrence; so the replacement span's character
length is that byte length times the filler's character length (length in
characters is preserved only when both are 1-to-1, e.g. a one-character
filler and a single-byte match). -/
theorem c1_amended (t : RemoveInvalidContent) (h : t.replace_with ≠ [])
    (m : List Char) :
    fillerFor t m = repeatN t.replace_with (utf8Len m) ∧
      (fillerFor t m).length = utf8Len m * t.replace_with.length :=
  ⟨by rw [fillerFor, if_neg h], fillerFor_length t h m⟩

/-- C1, witness: the amended statement at the counterexample's input — filler
`*`, matched occurrence `中` (3 bytes): the replacement has 3 = 3 × 1
characters. -/
theorem c1_amended_witness :
    fillerFor ⟨[litRe ['中']], ['*']⟩ ['中'] =
        repeatN ['*'] (utf8Len ['中']) ∧
      (fillerFor ⟨[litRe ['中']], ['*']⟩ ['中']).length =
        utf8Len ['中'] * (['*'] : List Char).length :=
  c1_amended ⟨[litRe ['中']], ['*']⟩ (by decide) ['中']

/-- C2: for every import declaration (any specifier mix), export-all,
named-export and default-export declaration, and every call expression whose
callee is the dynamic-import form, the transform returns the node unchanged —
no descendant text (module paths, as-renames) is visited or mutated,
whatever the matchers are. -/
theorem c2_module_linkage_immunity (t : RemoveInvalidContent) :
    (∀ (specs : List ImportSpecifier) (src : Str),
        visitModuleItem t (.importDecl specs src) = .importDecl specs src) ∧
    (∀ src : Str, visitModuleItem t (.exportAll src) = .exportAll src) ∧
    (∀ (specs : List ExportSpecifier) (src : Option Str),
        visitModuleItem t (.namedExport specs src) = .namedExport specs src) ∧
    (∀ d : DefaultDecl,
        visitModuleItem t (.exportDefaultDecl d) = .exportDefaultDecl d) ∧
    (∀ args : ExprList,
        visitExpr t (.call .importCallee args) = .call .importCallee args) :=
  ⟨fun _ _ => rfl, fun _ => rfl, fun _ _ => rfl, fun _ => rfl, fun _ => rfl⟩

/-- C3, counterexample: with the empty filler the first pass's output need
not be a fixed point.  The literal rule `ab` on the program holding the
string `"aabb"` gives `"ab"` after one pass (the deletion glues an `a` and a
`b` together), and the second pass deletes that too. -/
theorem c3_counterexample :
    visitProgram tAB (visitProgram tAB progAB) ≠ visitProgram tAB progAB :=
  fun h => absurd (congrArg firstStrValue h) (by decide)

/-- C3, amended: idempotence does hold for deletion-based pattern sets whose
matchers are single-character classes (such as the plugin's own CJK-range
patterns): deleting every matched character leaves no matched character
behind, so a second run changes nothing. -/
theorem c3_amended (t : RemoveInvalidContent) (hf : t.replace_with = [])
    (hcc : ∀ m ∈ t.matchers, ∃ p, m = charClassRe p) (prog : Program) :
    visitProgram t (visitProgram t prog) = visitProgram t prog :=
  visitProgram_idem t hf hcc prog

/-- C3, witness: the amended statement for the CJK deletion transform on a
program whose string literal `"a中b"` is actually rewritten. -/
theorem c3_amended_witness :
    visitProgram tCJKdel (visitProgram tCJKdel progCJK) =
      visitProgram tCJKdel progCJK :=
  c3_amended tCJKdel rfl
    (fun m hm => ⟨isCJK, by simpa [tCJKdel] using hm⟩) progCJK

/-- C4: with two rules R1, R2 configured in that order, the text each leaf
visitor installs is R2's replacement applied to the output of R1's
replacement on the original text (each rule consuming the previous rule's
output, never both applied independently to the original). -/
theorem c4_rule_order (t : RemoveInvalidContent) (r1 r2 : Regex)
    (h : t.matchers = [r1, r2]) :
    (∀ node : Str, (visitStrNode t node).value =
        applyRule t (applyRule t node.value r1) r2) ∧
    (∀ node : TplElement, (visitTplElementNode t node).raw =
        applyRule t (applyRule t node.raw r1) r2) ∧
    (∀ node : JSXText, (visitJSXTextNode t node).raw =
        applyRule t (applyRule t node.raw r1) r2) := by
  refine ⟨fun node => ?_, fun node => ?_, fun node => ?_⟩
  · rw [visitStrNode_value, h]; rfl
  · rw [visitTplElementNode_raw, h]; rfl
  · rw [visitJSXTextNode_raw, h]; rfl

/-- C4, witness: the two-rule ordering law at the concrete transform with
rules `a` then `bb` (in that order) on the string `"abab"`: deleting `a`
first exposes `bb`, so the installed text is empty. -/
theorem c4_rule_order_witness :
    (visitStrNode ⟨[litRe ['a'], litRe ['b', 'b']], []⟩
        ⟨⟨0, 4⟩, ['a', 'b', 'a', 'b'], none⟩).value =
      applyRule ⟨[litRe ['a'], litRe ['b', 'b']], []⟩
        (applyRule ⟨[litRe ['a'], litRe ['b', 'b']], []⟩
          ['a', 'b', 'a', 'b'] (litRe ['a']))
        (litRe ['b', 'b']) :=
  (c4_rule_order ⟨[litRe ['a'], litRe ['b', 'b']], []⟩ (litRe ['a'])
    (litRe ['b', 'b']) rfl).1 ⟨⟨0, 4⟩, ['a', 'b', 'a', 'b'], none⟩

/-- C5: whenever the template-segment rewrite changes the raw text, the
cooked form of the result is the decoding of the result's raw text — cooked
is recomputed from raw and never patched independently. -/
theorem c5_cooked_recomputed (t : RemoveInvalidContent) (node : TplElement)
    (h : (visitTplElementNode t node).raw ≠ node.raw) :
    (visitTplElementNode t node).cooked =
      some (fromTplRaw (visitTplElementNode t node).raw) := by
  obtain ⟨-, -, hc⟩ := visitTplElementNode_inv t node
  rcases hc with heq | hcook
  · exact absurd (congrArg TplElement.raw heq) h
  · exact hcook

/-- C5, witness: the CJK deletion transform changes the raw text `中` of a
template segment, and the resulting cooked form is the decoding of the new
raw text. -/
theorem c5_cooked_recomputed_witness :
    (visitTplElementNode tCJKdel tplNodeCJK).raw ≠ tplNodeCJK.raw ∧
      (visitTplElementNode tCJKdel tplNodeCJK).cooked =
        some (fromTplRaw (visitTplElementNode tCJKdel tplNodeCJK).raw) :=
  ⟨by decide, c5_cooked_recomputed tCJKdel tplNodeCJK (by decide)⟩

/-- C6: a text node none of whose rules match is left byte-for-byte
identical (string literal on its value, template segment and JSX text on
their raw), and a program all of whose text is non-matching comes out
identical to its input. -/
theorem c6_noop_on_no_match (t : RemoveInvalidContent) :
    (∀ node : Str, noMatchText t node.value = true →
        visitStrNode t node = node) ∧
    (∀ node : TplElement, noMatchText t node.raw = true →
        visitTplElementNode t node = node) ∧
    (∀ node : JSXText, noMatchText t node.raw = true →
        visitJSXTextNode t node = node) ∧
    (∀ prog : Program, noMatchProgram t prog = true →
        visitProgram t prog = prog) :=
  ⟨visitStrNode_fix t, visitTplElementNode_fix t, visitJSXTextNode_fix t,
    visitProgram_noMatch t⟩

/-- C6, witness: the `ab`-deletion transform leaves the program holding only
the non-matching string `"xy"` unchanged. -/
theorem c6_noop_on_no_match_witness :
    visitProgram tAB [.exprStmt (.strLit ⟨⟨0, 4⟩, ['x', 'y'], none⟩)] =
      [.exprStmt (.strLit ⟨⟨0, 4⟩, ['x', 'y'], none⟩)] :=
  (c6_noop_on_no_match tAB).2.2.2
    [.exprStmt (.strLit ⟨⟨0, 4⟩, ['x', 'y'], none⟩)] (by decide)

/-- C7: a decoded configuration that is absent/null behaves exactly as the
all-defaults configuration (empty pattern list, empty filler): the transform
succeeds and returns the tree unchanged. -/
theorem c7_default_config (compile : String → Option Regex) (prog : Program) :
    process_transform compile none prog = .ok prog ∧
      process_transform compile none prog =
        process_transform compile (some Config.default) prog := by
  constructor
  · have h1 : process_transform compile none prog =
        .ok (visitProgram ⟨[], []⟩ prog) := rfl
    rw [h1, visitProgram_emptyMatchers ⟨[], []⟩ rfl prog]
  · rfl

/-- C8: pattern compilation failure is the only traversal-blocking error —
for every program tree, the transform yields a program exactly when every
configured pattern compiles; when one fails, setup aborts (the `unwrap`
panic in `new`) before the traversal, so no tree is produced at all and no
node is mutated. -/
theorem c8_compile_failure_aborts (compile : String → Option Regex)
    (config : Config) (prog : Program) :
    (∃ prog', process_transform compile (some config) prog = .ok prog') ↔
      ∀ p ∈ config.«matches», (compile p).isSome := by
  have hiff := compileAll_ok_iff compile config.«matches»
  cases hall : compileAll compile config.«matches» with
  | error e =>
      have hproc : process_transform compile (some config) prog = .error e := by
        simp [process_transform, RemoveInvalidContent.new, hall]
      constructor
      · rintro ⟨prog', hp⟩
        rw [hproc] at hp
        simp at hp
      · intro h
        obtain ⟨rs, hrs⟩ := hiff.mpr h
        rw [hall] at hrs
        simp at hrs
  | ok ms =>
      have hproc : process_transform compile (some config) prog =
          .ok (visitProgram ⟨ms, config.replace_with.getD []⟩ prog) := by
        simp [process_transform, RemoveInvalidContent.new, hall]
      constructor
      · intro _
        exact hiff.mp ⟨ms, hall⟩
      · intro _
        exact ⟨_, hproc⟩

/-- C9: an `export default function`/`class` declaration is skipped whole:
the item comes back equal, so every string literal, template segment and
text node inside the exported body is untouched even if its text matches a
configured pattern. -/
theorem c9_default_export_subtree_skipped (t : RemoveInvalidContent)
    (d : DefaultDecl) :
    visitModuleItem t (.exportDefaultDecl d) = .exportDefaultDecl d := rfl

/-- C10: a plain string literal whose value was changed is rebuilt from the
new text alone — its span becomes the dummy span and its raw form is
dropped — whereas the template-segment rewrite always preserves span and
tail. -/
theorem c10_str_rebuilt_from_text (t : RemoveInvalidContent) :
    (∀ node : Str, (visitStrNode t node).value ≠ node.value →
        (visitStrNode t node).span = dummySpan ∧
          (visitStrNode t node).raw = none) ∧
    (∀ node : TplElement,
        (visitTplElementNode t node).span = node.span ∧
          (visitTplElementNode t node).tail = node.tail) := by
  constructor
  · intro node h
    rcases foldl_strStep_shape t t.matchers node with heq | ⟨v, hv⟩
    · exact absurd (congrArg Str.value heq) h
    · have hv' : visitStrNode t node = Str.fromText v := hv
      rw [hv']
      exact ⟨rfl, rfl⟩
  · intro node
    obtain ⟨hs, ht, -⟩ := visitTplElementNode_inv t node
    exact ⟨hs, ht⟩

/-- C10, witness: the CJK deletion transform changes the value of the string
literal `"中"`,  and the rebuilt node carries the dummy span and no raw
form. -/
theorem c10_str_rebuilt_from_text_witness :
    (visitStrNode tCJKdel strNodeCJK).span = dummySpan ∧
      (visitStrNode tCJKdel strNodeCJK).raw = none :=
  (c10_str_rebuilt_from_text tCJKdel).1 strNodeCJK (by decide)

end SwcRMC
